import Mathlib

/-!
Shallow embedding of the machu.la Supabase edge functions
(`handle-inbound-sms`, `verify-pin`, `admin-data`, `broadcast-sms`).

Bytes are `Nat` with explicit `% 256` where overflow matters; 32-bit words
are `Nat` with explicit `% 2 ^ 32`.  Strings keep Lean's `String`
(`String.mk : List Char → String`), and the JavaScript string operations
used by the source (`split`, `trim`, `toUpperCase`, `includes`, form
decoding, `parseInt(_, 16)`) are modelled character by character.
-/

namespace Machula

/-- Byte-wise XOR: bytes are `Nat` kept below 256 with an explicit mod. -/
def xorB (a b : Nat) : Nat := (a ^^^ b) % 256

/-- Big-endian bytes of `n`, exactly `k` bytes (like `DataView` writes). -/
def natToBytesBE : Nat → Nat → List Nat
  | 0, _ => []
  | k + 1, n => natToBytesBE k (n / 256) ++ [n % 256]

/-- Big-endian byte list to `Nat` (like `DataView.getUint32` reads). -/
def bytesToNatBE (bs : List Nat) : Nat := bs.foldl (fun a b => a * 256 + b) 0

theorem natToBytesBE_length (k n : Nat) : (natToBytesBE k n).length = k := by
  induction k generalizing n with
  | zero => rfl
  | succ k ih => simp [natToBytesBE, ih]

theorem natToBytesBE_lt (k n : Nat) : ∀ b ∈ natToBytesBE k n, b < 256 := by
  induction k generalizing n with
  | zero => simp [natToBytesBE]
  | succ k ih =>
    intro b hb
    simp only [natToBytesBE, List.mem_append, List.mem_singleton] at hb
    rcases hb with h | h
    · exact ih _ b h
    · omega

theorem mem_zipWith_xorB_lt : ∀ (as bs : List Nat), ∀ x ∈ List.zipWith xorB as bs, x < 256 := by
  intro as
  induction as with
  | nil => simp
  | cons a as ih =>
    intro bs x hx
    cases bs with
    | nil => simp at hx
    | cons b bs =>
      simp only [List.zipWith, List.mem_cons] at hx
      rcases hx with h | h
      · subst h; exact Nat.mod_lt _ (by omega)
      · exact ih bs x h

/-- XOR-decrypting with the same keystream recovers the plaintext. -/
theorem zipWith_xorB_invol (pt ks : List Nat)
    (hpt : ∀ b ∈ pt, b < 256) (hks : ∀ b ∈ ks, b < 256)
    (hlen : pt.length ≤ ks.length) :
    List.zipWith xorB (List.zipWith xorB pt ks) ks = pt := by
  induction pt generalizing ks with
  | nil => simp
  | cons p ps ih =>
    cases ks with
    | nil => simp at hlen
    | cons k kt =>
      have hp : p < 256 := hpt p (by simp)
      have hk : k < 256 := hks k (by simp)
      have hxor : p ^^^ k < 256 := Nat.xor_lt_two_pow (n := 8) hp hk
      simp only [List.zipWith, List.cons.injEq]
      constructor
      · show xorB (xorB p k) k = p
        unfold xorB
        rw [Nat.mod_eq_of_lt hxor, Nat.xor_assoc, Nat.xor_self, Nat.xor_zero,
          Nat.mod_eq_of_lt hp]
      · exact ih kt (fun b hb => hpt b (List.mem_cons_of_mem _ hb))
          (fun b hb => hks b (List.mem_cons_of_mem _ hb)) (by simpa using hlen)

/-! ## Hex encoding / decoding

`toHex` embeds `b => b.toString(16).padStart(2, '0')` joined over the bytes.
`fromHex` embeds `h => new Uint8Array(h.match(/.{2}/g)!.map(b => parseInt(b, 16)))`:
the regex `.{2}` pairs consecutive non-line-terminator characters, a `null`
match result (no pair at all) throws through the non-null assertion, and
`parseInt(_, 16)` is lenient — it reads an optional sign and a maximal hex
digit prefix, yielding `NaN` (stored as byte 0) when no digit is present. -/

/-- One lowercase hex digit, as `Number.prototype.toString(16)` renders it. -/
def hexDigit (d : Nat) : Char :=
  if d < 10 then Char.ofNat (48 + d) else Char.ofNat (87 + d)

/-- The two hex characters of one byte (`toString(16).padStart(2, '0')`). -/
def byteHexChars (b : Nat) : List Char := [hexDigit (b / 16), hexDigit (b % 16)]

/-- `toHex`: the lowercase hex string of a byte list. -/
def toHex (bs : List Nat) : String := String.mk (bs.flatMap byteHexChars)

/-- A character the JavaScript regex `.` can match (not a line terminator). -/
def regexDotOk (c : Char) : Bool :=
  c ≠ '\n' && c ≠ '\r' && c.toNat ≠ 0x2028 && c.toNat ≠ 0x2029

/-- The pairs produced by `h.match(/.{2}/g)`: scan left to right, emitting a
pair whenever two consecutive matchable characters are found. -/
def regexPairs : List Char → List (Char × Char)
  | [] => []
  | [_] => []
  | c1 :: c2 :: rest =>
    if regexDotOk c1 && regexDotOk c2 then (c1, c2) :: regexPairs rest
    else regexPairs (c2 :: rest)

/-- Numeric value of a hex digit character, if it is one. -/
def hexVal (c : Char) : Option Nat :=
  if '0' ≤ c ∧ c ≤ '9' then some (c.toNat - 48)
  else if 'a' ≤ c ∧ c ≤ 'f' then some (c.toNat - 87)
  else if 'A' ≤ c ∧ c ≤ 'F' then some (c.toNat - 55)
  else none

/-- JavaScript whitespace (the characters `\s` and `trim` treat as space). -/
def jsWhitespace (c : Char) : Bool :=
  c = ' ' || c = '\t' || c = '\n' || c = '\r' || c.toNat = 11 || c.toNat = 12 ||
  c.toNat = 0xA0 || c.toNat = 0xFEFF || c.toNat = 0x1680 ||
  (0x2000 ≤ c.toNat && c.toNat ≤ 0x200A) ||
  c.toNat = 0x2028 || c.toNat = 0x2029 || c.toNat = 0x202F ||
  c.toNat = 0x205F || c.toNat = 0x3000

/-- `parseInt(s, 16)` on a two-character chunk, coerced to a byte the way
`Uint8Array` stores it (`NaN` becomes 0, negatives wrap modulo 256). -/
def parseIntHexPairByte (c1 c2 : Char) : Nat :=
  if jsWhitespace c1 then (hexVal c2).getD 0
  else if c1 = '-' then
    match hexVal c2 with
    | some v => (256 - v) % 256
    | none => 0
  else if c1 = '+' then (hexVal c2).getD 0
  else
    match hexVal c1 with
    | none => 0
    | some v1 =>
      if c1 = '0' ∧ (c2 = 'x' ∨ c2 = 'X') then 0
      else
        match hexVal c2 with
        | some v2 => 16 * v1 + v2
        | none => v1

/-- `fromHex`: `none` models the thrown `TypeError` when `match` returns
`null` (no pair found). -/
def fromHex (h : String) : Option (List Nat) :=
  match regexPairs h.data with
  | [] => none
  | ps => some (ps.map fun p => parseIntHexPairByte p.1 p.2)

theorem hexDigit_dotOk : ∀ d < 16, regexDotOk (hexDigit d) = true := by decide

theorem hexDigit_ne_colon : ∀ d < 16, hexDigit d ≠ ':' := by decide

set_option maxRecDepth 8192 in
theorem parseIntHexPairByte_hexDigits :
    ∀ b < 256, parseIntHexPairByte (hexDigit (b / 16)) (hexDigit (b % 16)) = b := by decide

theorem regexPairs_cons2 (c1 c2 : Char) (rest : List Char) :
    regexPairs (c1 :: c2 :: rest) =
      if regexDotOk c1 && regexDotOk c2 then (c1, c2) :: regexPairs rest
      else regexPairs (c2 :: rest) := rfl

theorem regexPairs_hex (bs : List Nat) (hb : ∀ b ∈ bs, b < 256) :
    regexPairs (bs.flatMap byteHexChars) =
      bs.map (fun b => (hexDigit (b / 16), hexDigit (b % 16))) := by
  induction bs with
  | nil => rfl
  | cons b bs ih =>
    have h1 : b / 16 < 16 := by have := hb b (by simp); omega
    have h2 : b % 16 < 16 := by omega
    simp only [List.flatMap_cons, byteHexChars, List.cons_append, List.nil_append,
      List.map_cons]
    rw [regexPairs_cons2, hexDigit_dotOk _ h1, hexDigit_dotOk _ h2]
    simp only [Bool.and_self, if_true]
    rw [ih (fun x hx => hb x (List.mem_cons_of_mem _ hx))]

/-- Round trip: decoding the canonical hex of a byte list recovers it. -/
theorem fromHex_toHex (bs : List Nat) (hne : bs ≠ []) (hb : ∀ b ∈ bs, b < 256) :
    fromHex (toHex bs) = some bs := by
  unfold fromHex toHex
  simp only [String.data]
  rw [regexPairs_hex bs hb]
  cases bs with
  | nil => exact absurd rfl hne
  | cons b bs =>
    simp only [List.map_cons]
    have hmap : ∀ (l : List Nat), (∀ x ∈ l, x < 256) →
        (l.map (fun b => (hexDigit (b / 16), hexDigit (b % 16)))).map
          (fun p => parseIntHexPairByte p.1 p.2) = l := by
      intro l hl
      induction l with
      | nil => rfl
      | cons x xs ihx =>
        simp only [List.map_cons, List.cons.injEq]
        exact ⟨parseIntHexPairByte_hexDigits x (hl x (by simp)),
          ihx (fun y hy => hl y (List.mem_cons_of_mem _ hy))⟩
    have := hmap (b :: bs) hb
    simp only [List.map_cons] at this
    rw [this]

/-! ## UTF-8 codec (`TextEncoder` / `TextDecoder`)

`utf8EncodeChar` writes the standard 1–4 byte encoding, with the bit
packing expressed as arithmetic on disjoint ranges.  `utf8Decode` is the
matching total decoder; invalid input produces U+FFFD replacement
characters (the `TextDecoder` default in these edge functions is the
non-fatal mode), with error recovery restarting at the offending byte. -/

/-- U+FFFD, the replacement character a non-fatal `TextDecoder` emits. -/
def replChar : Char := Char.ofNat 0xFFFD

/-- UTF-8 bytes of one scalar value. -/
def utf8EncodeChar (c : Char) : List Nat :=
  if c.toNat < 128 then [c.toNat]
  else if c.toNat < 2048 then [192 + c.toNat / 64, 128 + c.toNat % 64]
  else if c.toNat < 65536 then
    [224 + c.toNat / 4096, 128 + c.toNat / 64 % 64, 128 + c.toNat % 64]
  else
    [240 + c.toNat / 262144, 128 + c.toNat / 4096 % 64, 128 + c.toNat / 64 % 64,
      128 + c.toNat % 64]

/-- UTF-8 bytes of a string (`TextEncoder.encode`). -/
def utf8Encode (s : String) : List Nat := s.data.flatMap utf8EncodeChar

/-- Valid second byte for a given 3-byte lead (excludes overlongs and
surrogates, as every conforming UTF-8 decoder does). -/
def utf8Cont3 (b b1 : Nat) : Prop :=
  if b = 224 then 160 ≤ b1 ∧ b1 < 192
  else if b = 237 then 128 ≤ b1 ∧ b1 < 160
  else 128 ≤ b1 ∧ b1 < 192

/-- Valid second byte for a given 4-byte lead. -/
def utf8Cont4 (b b1 : Nat) : Prop :=
  if b = 240 then 144 ≤ b1 ∧ b1 < 192
  else if b = 244 then 128 ≤ b1 ∧ b1 < 144
  else 128 ≤ b1 ∧ b1 < 192

instance (b b1 : Nat) : Decidable (utf8Cont3 b b1) := by unfold utf8Cont3; infer_instance
instance (b b1 : Nat) : Decidable (utf8Cont4 b b1) := by unfold utf8Cont4; infer_instance

/-- One decoding step: the character decoded at the front and the bytes
left over.  Errors produce U+FFFD and restart at the next byte. -/
def utf8Step (b : Nat) (rest : List Nat) : Char × List Nat :=
  if b < 128 then (Char.ofNat b, rest)
  else if b < 194 then (replChar, rest)
  else if b < 224 then
    match rest with
    | [] => (replChar, [])
    | b1 :: r2 =>
      if 128 ≤ b1 ∧ b1 < 192 then (Char.ofNat ((b - 192) * 64 + (b1 - 128)), r2)
      else (replChar, b1 :: r2)
  else if b < 240 then
    match rest with
    | b1 :: b2 :: r2 =>
      if utf8Cont3 b b1 ∧ 128 ≤ b2 ∧ b2 < 192 then
        (Char.ofNat ((b - 224) * 4096 + (b1 - 128) * 64 + (b2 - 128)), r2)
      else (replChar, b1 :: b2 :: r2)
    | short => (replChar, short)
  else if b < 245 then
    match rest with
    | b1 :: b2 :: b3 :: r2 =>
      if utf8Cont4 b b1 ∧ (128 ≤ b2 ∧ b2 < 192) ∧ 128 ≤ b3 ∧ b3 < 192 then
        (Char.ofNat ((b - 240) * 262144 + (b1 - 128) * 4096 + (b2 - 128) * 64 + (b3 - 128)),
          r2)
      else (replChar, b1 :: b2 :: b3 :: r2)
    | short => (replChar, short)
  else (replChar, rest)

theorem utf8Step_snd_length (b : Nat) (rest : List Nat) :
    (utf8Step b rest).2.length ≤ rest.length := by
  unfold utf8Step
  repeat' split
  all_goals simp_all
  all_goals omega

/-- The decoding loop, driven by a step-count bound (each step consumes
at least one byte, so the byte count is enough fuel; structural recursion
on the fuel keeps the function computable by the kernel). -/
def utf8DecodeGo : Nat → List Nat → List Char
  | _, [] => []
  | 0, _ => []
  | fuel + 1, b :: rest => (utf8Step b rest).1 :: utf8DecodeGo fuel (utf8Step b rest).2

/-- Total UTF-8 decoder (`TextDecoder.decode`, non-fatal mode). -/
def utf8Decode (bs : List Nat) : List Char := utf8DecodeGo bs.length bs

theorem utf8DecodeGo_congr : ∀ f1 f2 bs, bs.length ≤ f1 → bs.length ≤ f2 →
    utf8DecodeGo f1 bs = utf8DecodeGo f2 bs := by
  intro f1
  induction f1 with
  | zero =>
    intro f2 bs h1 h2
    have hbs : bs = [] := by
      cases bs with
      | nil => rfl
      | cons b rest => simp at h1
    subst hbs
    cases f2 <;> rfl
  | succ f ih =>
    intro f2 bs h1 h2
    cases bs with
    | nil => cases f2 <;> rfl
    | cons b rest =>
      cases f2 with
      | zero => simp at h2
      | succ f2p =>
        show (utf8Step b rest).1 :: utf8DecodeGo f (utf8Step b rest).2
          = (utf8Step b rest).1 :: utf8DecodeGo f2p (utf8Step b rest).2
        congr 1
        have hs := utf8Step_snd_length b rest
        simp only [List.length_cons] at h1 h2
        exact ih f2p _ (by omega) (by omega)

/-- A string decoded from bytes. -/
def utf8DecodeString (bs : List Nat) : String := String.mk (utf8Decode bs)

theorem utf8EncodeChar_lt (c : Char) : ∀ b ∈ utf8EncodeChar c, b < 256 := by
  have hv : c.toNat < 1114112 := by
    rcases c.valid with h | h
    · exact Nat.lt_trans h (by norm_num)
    · exact h.2
  intro b hb
  unfold utf8EncodeChar at hb
  split at hb
  · simp at hb; omega
  · split at hb
    · simp at hb; rcases hb with h | h <;> omega
    · split at hb
      · simp at hb; rcases hb with h | h | h <;> omega
      · simp at hb; rcases hb with h | h | h | h <;> omega

theorem utf8Encode_lt (s : String) : ∀ b ∈ utf8Encode s, b < 256 := by
  intro b hb
  unfold utf8Encode at hb
  rw [List.mem_flatMap] at hb
  obtain ⟨c, _, hc⟩ := hb
  exact utf8EncodeChar_lt c b hc

theorem utf8Decode_cons (b : Nat) (rest : List Nat) :
    utf8Decode (b :: rest) = (utf8Step b rest).1 :: utf8Decode (utf8Step b rest).2 := by
  unfold utf8Decode
  show (utf8Step b rest).1 :: utf8DecodeGo rest.length (utf8Step b rest).2
    = (utf8Step b rest).1 :: utf8DecodeGo (utf8Step b rest).2.length (utf8Step b rest).2
  congr 1
  exact utf8DecodeGo_congr rest.length _ _ (utf8Step_snd_length b rest) (Nat.le_refl _)

/-- Decoding an encoded scalar in front of any byte tail recovers it. -/
theorem utf8Decode_encodeChar (c : Char) (rest : List Nat) :
    utf8Decode (utf8EncodeChar c ++ rest) = c :: utf8Decode rest := by
  have hv : c.toNat < 55296 ∨ (57343 < c.toNat ∧ c.toNat < 1114112) := c.valid
  have hofNat : Char.ofNat c.toNat = c := Char.ofNat_toNat c
  by_cases h1 : c.toNat < 128
  · rw [show utf8EncodeChar c = [c.toNat] from by unfold utf8EncodeChar; rw [if_pos h1]]
    show utf8Decode (c.toNat :: rest) = _
    rw [utf8Decode_cons, show utf8Step c.toNat rest = (Char.ofNat c.toNat, rest) from by
      unfold utf8Step; rw [if_pos h1]]
    rw [hofNat]
  · by_cases h2 : c.toNat < 2048
    · rw [show utf8EncodeChar c = [192 + c.toNat / 64, 128 + c.toNat % 64] from by
        unfold utf8EncodeChar; rw [if_neg h1, if_pos h2]]
      show utf8Decode ((192 + c.toNat / 64) :: (128 + c.toNat % 64) :: rest) = _
      rw [utf8Decode_cons, show utf8Step (192 + c.toNat / 64) ((128 + c.toNat % 64) :: rest)
        = (Char.ofNat ((192 + c.toNat / 64 - 192) * 64 + (128 + c.toNat % 64 - 128)), rest)
        from by
          unfold utf8Step
          rw [if_neg (by omega), if_neg (by omega), if_pos (by omega)]
          dsimp only
          rw [if_pos (by constructor <;> omega)]]
      rw [show (192 + c.toNat / 64 - 192) * 64 + (128 + c.toNat % 64 - 128) = c.toNat by
        omega]
      rw [hofNat]
    · by_cases h3 : c.toNat < 65536
      · rw [show utf8EncodeChar c =
          [224 + c.toNat / 4096, 128 + c.toNat / 64 % 64, 128 + c.toNat % 64] from by
          unfold utf8EncodeChar; rw [if_neg h1, if_neg h2, if_pos h3]]
        show utf8Decode ((224 + c.toNat / 4096) :: (128 + c.toNat / 64 % 64)
          :: (128 + c.toNat % 64) :: rest) = _
        rw [utf8Decode_cons, show utf8Step (224 + c.toNat / 4096)
          ((128 + c.toNat / 64 % 64) :: (128 + c.toNat % 64) :: rest)
          = (Char.ofNat ((224 + c.toNat / 4096 - 224) * 4096
              + (128 + c.toNat / 64 % 64 - 128) * 64 + (128 + c.toNat % 64 - 128)), rest)
          from by
            have hns : c.toNat < 55296 ∨ 57343 < c.toNat := by
              rcases hv with h | h
              · exact Or.inl h
              · exact Or.inr h.1
            unfold utf8Step
            rw [if_neg (by omega), if_neg (by omega), if_neg (by omega), if_pos (by omega)]
            dsimp only
            rw [if_pos (by
              refine ⟨?_, by omega, by omega⟩
              unfold utf8Cont3
              split
              · rename_i he
                have : c.toNat / 4096 = 0 := by omega
                constructor <;> omega
              · split
                · rename_i hne he
                  have h13 : c.toNat / 4096 = 13 := by omega
                  constructor <;> omega
                · constructor <;> omega)]]
        rw [show (224 + c.toNat / 4096 - 224) * 4096 + (128 + c.toNat / 64 % 64 - 128) * 64
          + (128 + c.toNat % 64 - 128) = c.toNat by omega]
        rw [hofNat]
      · have hv4 : c.toNat < 1114112 := by rcases hv with h | h <;> omega
        rw [show utf8EncodeChar c = [240 + c.toNat / 262144, 128 + c.toNat / 4096 % 64,
          128 + c.toNat / 64 % 64, 128 + c.toNat % 64] from by
          unfold utf8EncodeChar; rw [if_neg h1, if_neg h2, if_neg h3]]
        show utf8Decode ((240 + c.toNat / 262144) :: (128 + c.toNat / 4096 % 64)
          :: (128 + c.toNat / 64 % 64) :: (128 + c.toNat % 64) :: rest) = _
        rw [utf8Decode_cons, show utf8Step (240 + c.toNat / 262144)
          ((128 + c.toNat / 4096 % 64) :: (128 + c.toNat / 64 % 64)
            :: (128 + c.toNat % 64) :: rest)
          = (Char.ofNat ((240 + c.toNat / 262144 - 240) * 262144
              + (128 + c.toNat / 4096 % 64 - 128) * 4096
              + (128 + c.toNat / 64 % 64 - 128) * 64 + (128 + c.toNat % 64 - 128)), rest)
          from by
            unfold utf8Step
            rw [if_neg (by omega), if_neg (by omega), if_neg (by omega), if_neg (by omega),
              if_pos (by omega)]
            dsimp only
            rw [if_pos (by
              refine ⟨?_, ⟨by omega, by omega⟩, by omega, by omega⟩
              unfold utf8Cont4
              split
              · rename_i he
                have : c.toNat / 262144 = 0 := by omega
                constructor <;> omega
              · split
                · rename_i hne he
                  have : c.toNat / 262144 = 4 := by omega
                  constructor <;> omega
                · constructor <;> omega)]]
        rw [show (240 + c.toNat / 262144 - 240) * 262144
          + (128 + c.toNat / 4096 % 64 - 128) * 4096
          + (128 + c.toNat / 64 % 64 - 128) * 64 + (128 + c.toNat % 64 - 128) = c.toNat by
          omega]
        rw [hofNat]

/-- Decoding the encoding of a whole string recovers it. -/
theorem utf8Decode_nil : utf8Decode [] = [] := rfl

theorem utf8Decode_encode (s : String) : utf8Decode (utf8Encode s) = s.data := by
  unfold utf8Encode
  induction s.data with
  | nil => simp only [List.flatMap_nil, utf8Decode_nil]
  | cons c cs ih => rw [List.flatMap_cons, utf8Decode_encodeChar, ih]

theorem utf8DecodeString_encode (s : String) : utf8DecodeString (utf8Encode s) = s := by
  unfold utf8DecodeString
  rw [utf8Decode_encode]

/-! ## JavaScript string helpers -/

/-- `String.prototype.trim`. -/
def jsTrim (s : String) : String :=
  String.mk (((s.data.dropWhile jsWhitespace).reverse.dropWhile jsWhitespace).reverse)

/-- `String.prototype.toUpperCase` on one character (ASCII range, which is
all these edge functions rely on). -/
def jsToUpperChar (c : Char) : Char :=
  if 'a' ≤ c ∧ c ≤ 'z' then Char.ofNat (c.toNat - 32) else c

/-- `String.prototype.toUpperCase`. -/
def jsToUpper (s : String) : String := String.mk (s.data.map jsToUpperChar)

/-- `String.prototype.includes` for a single-character needle. -/
def jsIncludes (s : String) (c : Char) : Bool := s.data.contains c

/-- `String.prototype.split(sep)` over characters. -/
def splitOnChar (sep : Char) : List Char → List (List Char)
  | [] => [[]]
  | c :: rest =>
    match splitOnChar sep rest with
    | [] => [[c]]
    | g :: gs => if c = sep then [] :: g :: gs else (c :: g) :: gs

/-! ## URL-form-encoded body parsing (`URLSearchParams`) -/

/-- Percent-decoding of one form-encoded segment into bytes: `+` is a
space, `%XX` with two hex digits is a byte, anything else contributes its
UTF-8 bytes (invalid `%` sequences pass through literally). -/
def percentDecodeBytes : List Char → List Nat
  | [] => []
  | '+' :: rest => 32 :: percentDecodeBytes rest
  | '%' :: c1 :: c2 :: rest =>
    match hexVal c1, hexVal c2 with
    | some v1, some v2 => (16 * v1 + v2) :: percentDecodeBytes rest
    | _, _ => utf8EncodeChar '%' ++ percentDecodeBytes (c1 :: c2 :: rest)
  | c :: rest => utf8EncodeChar c ++ percentDecodeBytes rest

/-- A decoded form name or value. -/
def formDecode (cs : List Char) : String := utf8DecodeString (percentDecodeBytes cs)

/-- `new URLSearchParams(rawBody)`: strip a leading `?`, split on `&`,
skip empty segments, split each segment at its first `=` (no `=` means an
empty value), percent-decode names and values.  Duplicate names yield one
entry per occurrence, in order. -/
def parseForm (s : String) : List (String × String) :=
  let cs := match s.data with
    | '?' :: rest => rest
    | l => l
  ((splitOnChar '&' cs).filter (· ≠ [])).map fun seg =>
    (formDecode (seg.takeWhile (· ≠ '=')), formDecode ((seg.dropWhile (· ≠ '=')).drop 1))

/-- First value for a name (`params.get(k)`, `null` when absent). -/
def getParam (params : List (String × String)) (k : String) : Option String :=
  (params.find? (fun p => p.1 == k)).map (·.2)

/-- Lexicographic code-point order on character lists (the order
JavaScript's default string sort uses). -/
def ltCharList : List Char → List Char → Bool
  | [], [] => false
  | [], _ :: _ => true
  | _ :: _, [] => false
  | a :: as, b :: bs =>
    if a.toNat < b.toNat then true
    else if b.toNat < a.toNat then false
    else ltCharList as bs

/-- String comparison for the sort. -/
def ltStr (a b : String) : Bool := ltCharList a.data b.data

/-- JavaScript default `Array.prototype.sort` comparator order on strings
(ascending, lexicographic by code point), as a stable insertion sort. -/
def insertStr (x : String) : List String → List String
  | [] => [x]
  | y :: ys => if ltStr y x then y :: insertStr x ys else x :: y :: ys

/-- Sort a list of strings ascending (`[...params.keys()].sort()`). -/
def sortStrs : List String → List String
  | [] => []
  | x :: xs => insertStr x (sortStrs xs)

/-! ## SHA-1, HMAC-SHA1 and base64 (the Web Crypto calls in `verifyTwilio`) -/

/-- 32-bit rotate left. -/
def rotl32 (k x : Nat) : Nat := ((x <<< k) ||| (x >>> (32 - k))) % 4294967296

/-- SHA-1 message padding: `0x80`, zeros to 56 mod 64, 64-bit bit length. -/
def sha1Pad (msg : List Nat) : List Nat :=
  msg ++ [128] ++ List.replicate ((120 - (msg.length + 1) % 64) % 64) 0 ++
    natToBytesBE 8 (8 * msg.length)

/-- Split a byte list into successive 64-byte blocks (fuelled by the
byte count so the kernel can evaluate it). -/
def chunks64Go : Nat → List Nat → List (List Nat)
  | _, [] => []
  | 0, _ => []
  | fuel + 1, b :: rest => ((b :: rest).take 64) :: chunks64Go fuel ((b :: rest).drop 64)

/-- Split a byte list into successive 64-byte blocks. -/
def chunks64 (l : List Nat) : List (List Nat) := chunks64Go l.length l

/-- The SHA-1 round function. -/
def sha1F (i b c d : Nat) : Nat :=
  if i < 20 then (b &&& c) ||| ((b ^^^ 4294967295) &&& d)
  else if i < 40 then b ^^^ c ^^^ d
  else if i < 60 then (b &&& c) ||| (b &&& d) ||| (c &&& d)
  else b ^^^ c ^^^ d

/-- The SHA-1 round constants. -/
def sha1K (i : Nat) : Nat :=
  if i < 20 then 1518500249
  else if i < 40 then 1859775393
  else if i < 60 then 2400959708
  else 3395469782

/-- Extend 16 message words to the 80-word SHA-1 schedule. -/
def sha1Extend (ws : List Nat) : List Nat :=
  (List.range 64).foldl
    (fun acc i =>
      acc ++ [rotl32 1 (acc.getD (i + 13) 0 ^^^ acc.getD (i + 8) 0 ^^^
        acc.getD (i + 2) 0 ^^^ acc.getD i 0)])
    ws

/-- One SHA-1 compression over a 64-byte block. -/
def sha1Compress (h : Nat × Nat × Nat × Nat × Nat) (block : List Nat) :
    Nat × Nat × Nat × Nat × Nat :=
  let ws := sha1Extend ((List.range 16).map (fun i => bytesToNatBE ((block.drop (4 * i)).take 4)))
  let fin := (List.range 80).foldl
    (fun st i =>
      let t := (rotl32 5 st.1 + sha1F i st.2.1 st.2.2.1 st.2.2.2.1 + st.2.2.2.2 +
        sha1K i + ws.getD i 0) % 4294967296
      (t, st.1, rotl32 30 st.2.1, st.2.2.1, st.2.2.2.1))
    h
  ((h.1 + fin.1) % 4294967296, (h.2.1 + fin.2.1) % 4294967296,
    (h.2.2.1 + fin.2.2.1) % 4294967296, (h.2.2.2.1 + fin.2.2.2.1) % 4294967296,
    (h.2.2.2.2 + fin.2.2.2.2) % 4294967296)

/-- SHA-1 of a byte list, as its 20 digest bytes. -/
def sha1 (msg : List Nat) : List Nat :=
  let d := (chunks64 (sha1Pad msg)).foldl sha1Compress
    (1732584193, 4023233417, 2562383102, 271733878, 3285377520)
  natToBytesBE 4 d.1 ++ natToBytesBE 4 d.2.1 ++ natToBytesBE 4 d.2.2.1 ++
    natToBytesBE 4 d.2.2.2.1 ++ natToBytesBE 4 d.2.2.2.2

/-- HMAC-SHA1 (RFC 2104) with a 64-byte block size. -/
def hmacSha1 (key msg : List Nat) : List Nat :=
  let k0 := if 64 < key.length then sha1 key else key
  let k := k0 ++ List.replicate (64 - k0.length) 0
  sha1 ((k.map fun b => (b ^^^ 92) % 256) ++ sha1 ((k.map fun b => (b ^^^ 54) % 256) ++ msg))

/-- One base64 alphabet character. -/
def base64Char (n : Nat) : Char :=
  if n < 26 then Char.ofNat (65 + n)
  else if n < 52 then Char.ofNat (97 + (n - 26))
  else if n < 62 then Char.ofNat (48 + (n - 52))
  else if n = 62 then '+' else '/'

/-- Base64 of a byte list, three bytes at a time with `=` padding. -/
def b64Groups : List Nat → List Char
  | [] => []
  | [b0] => [base64Char (b0 / 4), base64Char (b0 % 4 * 16), '=', '=']
  | [b0, b1] =>
    [base64Char (b0 / 4), base64Char (b0 % 4 * 16 + b1 / 16), base64Char (b1 % 16 * 4), '=']
  | b0 :: b1 :: b2 :: rest =>
    base64Char (b0 / 4) :: base64Char (b0 % 4 * 16 + b1 / 16) ::
    base64Char (b1 % 16 * 4 + b2 / 64) :: base64Char (b2 % 64) :: b64Groups rest

/-- `btoa(String.fromCharCode(...bytes))`. -/
def btoa (bs : List Nat) : String := String.mk (b64Groups bs)

/-! ## Twilio signature verification (`verifyTwilio`) -/

/-- The string the source signs: `url` followed by, for each key of
`[...params.keys()].sort()` (one entry per occurrence, duplicates kept),
the key and its first value (`params.get(k) ?? ''`). -/
def twilioCanonical (url rawBody : String) : String :=
  (sortStrs ((parseForm rawBody).map (·.1))).foldl
    (fun acc k => acc ++ k ++ ((getParam (parseForm rawBody) k).getD "")) url

/-- The signature the source computes and compares
(`btoa(HMAC-SHA1(authToken, canonical))`). -/
def expectedTwilioSignature (authToken url rawBody : String) : String :=
  btoa (hmacSha1 (utf8Encode authToken) (utf8Encode (twilioCanonical url rawBody)))

/-- `verifyTwilio`: `false` on a missing `X-Twilio-Signature` header,
otherwise string equality of the computed and claimed signatures. -/
def verifyTwilio (authToken url rawBody : String) (sig : Option String) : Bool :=
  match sig with
  | none => false
  | some s => expectedTwilioSignature authToken url rawBody == s

/-- Modelled from the spec (for refinement comparison with
`twilioCanonical`): the spec's canonical string uses the set of
**distinct** parameter keys, sorted, each with its first value. -/
def twilioCanonicalSpec (url rawBody : String) : String :=
  (sortStrs (((parseForm rawBody).map (·.1)).eraseDups)).foldl
    (fun acc k => acc ++ k ++ ((getParam (parseForm rawBody) k).getD "")) url

/-- Modelled from the spec: `sign(url, body, secret)` =
`base64(HMAC-SHA1(secret, url ++ sorted-distinct-keys-with-first-values))`. -/
def signSpec (authToken url rawBody : String) : String :=
  btoa (hmacSha1 (utf8Encode authToken) (utf8Encode (twilioCanonicalSpec url rawBody)))

/-- Replace the character at index `i` (a single-byte mutation of a
signature string). -/
def mutateAt (s : String) (i : Nat) (c : Char) : String := String.mk (s.data.set i c)

/-! ## AES-256-GCM (the Web Crypto calls in `encrypt` / `decrypt`)

The block is a 16-byte list in AES input order (byte `i` is state row
`i % 4`, column `i / 4`); key-schedule words and the GHASH field elements
are `Nat` with explicit `% 2 ^ 32` / 128-bit handling. -/

/-- The AES S-box. -/
def sbox : List Nat := [
  99, 124, 119, 123, 242, 107, 111, 197, 48, 1, 103, 43, 254, 215, 171, 118,
  202, 130, 201, 125, 250, 89, 71, 240, 173, 212, 162, 175, 156, 164, 114, 192,
  183, 253, 147, 38, 54, 63, 247, 204, 52, 165, 229, 241, 113, 216, 49, 21,
  4, 199, 35, 195, 24, 150, 5, 154, 7, 18, 128, 226, 235, 39, 178, 117,
  9, 131, 44, 26, 27, 110, 90, 160, 82, 59, 214, 179, 41, 227, 47, 132,
  83, 209, 0, 237, 32, 252, 177, 91, 106, 203, 190, 57, 74, 76, 88, 207,
  208, 239, 170, 251, 67, 77, 51, 133, 69, 249, 2, 127, 80, 60, 159, 168,
  81, 163, 64, 143, 146, 157, 56, 245, 188, 182, 218, 33, 16, 255, 243, 210,
  205, 12, 19, 236, 95, 151, 68, 23, 196, 167, 126, 61, 100, 93, 25, 115,
  96, 129, 79, 220, 34, 42, 144, 136, 70, 238, 184, 20, 222, 94, 11, 219,
  224, 50, 58, 10, 73, 6, 36, 92, 194, 211, 172, 98, 145, 149, 228, 121,
  231, 200, 55, 109, 141, 213, 78, 169, 108, 86, 244, 234, 101, 122, 174, 8,
  186, 120, 37, 46, 28, 166, 180, 198, 232, 221, 116, 31, 75, 189, 139, 138,
  112, 62, 181, 102, 72, 3, 246, 14, 97, 53, 87, 185, 134, 193, 29, 158,
  225, 248, 152, 17, 105, 217, 142, 148, 155, 30, 135, 233, 206, 85, 40, 223,
  140, 161, 137, 13, 191, 230, 66, 104, 65, 153, 45, 15, 176, 84, 187, 22]

/-- S-box lookup. -/
def sb (b : Nat) : Nat := sbox.getD b 0

/-- Apply the S-box to each byte of a 32-bit word. -/
def subWord (w : Nat) : Nat :=
  bytesToNatBE [sb (w / 16777216 % 256), sb (w / 65536 % 256), sb (w / 256 % 256),
    sb (w % 256)]

/-- Rotate a 32-bit word left by one byte. -/
def rotWord (w : Nat) : Nat := w % 16777216 * 256 + w / 16777216 % 256

/-- The AES-256 round constants, as words. -/
def rcon : List Nat := [16777216, 33554432, 67108864, 134217728, 268435456,
  536870912, 1073741824]

/-- The AES-256 key schedule: 8 key words extended to 60. -/
def keyExpansion (key : List Nat) : List Nat :=
  (List.range 52).foldl
    (fun ws i =>
      let j := i + 8
      let t0 := ws.getD (j - 1) 0
      let t :=
        if j % 8 = 0 then subWord (rotWord t0) ^^^ rcon.getD (j / 8 - 1) 0
        else if j % 8 = 4 then subWord t0
        else t0
      ws ++ [(ws.getD (j - 8) 0 ^^^ t) % 4294967296])
    ((List.range 8).map fun i => bytesToNatBE ((key.drop (4 * i)).take 4))

/-- The 16 bytes of round key `r`. -/
def roundKeyBytes (ws : List Nat) (r : Nat) : List Nat :=
  ((ws.drop (4 * r)).take 4).flatMap (natToBytesBE 4)

/-- ShiftRows on the 16-byte state. -/
def shiftRows (s : List Nat) : List Nat :=
  (List.range 16).map fun i => s.getD (i % 4 + 4 * ((i / 4 + i % 4) % 4)) 0

/-- Multiplication by x in GF(2^8), reduced modulo the AES polynomial. -/
def xt (b : Nat) : Nat := if b < 128 then 2 * b else (2 * b % 256 ^^^ 27) % 256

/-- MixColumns on one 4-byte column. -/
def mixCol (a : List Nat) : List Nat :=
  let a0 := a.getD 0 0
  let a1 := a.getD 1 0
  let a2 := a.getD 2 0
  let a3 := a.getD 3 0
  [(xt a0 ^^^ (xt a1 ^^^ a1) ^^^ a2 ^^^ a3) % 256,
   (a0 ^^^ xt a1 ^^^ (xt a2 ^^^ a2) ^^^ a3) % 256,
   (a0 ^^^ a1 ^^^ xt a2 ^^^ (xt a3 ^^^ a3)) % 256,
   ((xt a0 ^^^ a0) ^^^ a1 ^^^ a2 ^^^ xt a3) % 256]

/-- MixColumns on the 16-byte state (columns are contiguous 4-byte runs). -/
def mixColumns (s : List Nat) : List Nat :=
  (List.range 4).flatMap fun c => mixCol ((s.drop (4 * c)).take 4)

/-- One AES-256 encryption of a 16-byte block under an expanded key. -/
def aesBlock (ws input : List Nat) : List Nat :=
  let st0 := List.zipWith xorB input (roundKeyBytes ws 0)
  let st := (List.range 13).foldl
    (fun st r => List.zipWith xorB (mixColumns (shiftRows (st.map sb)))
      (roundKeyBytes ws (r + 1)))
    st0
  List.zipWith xorB (shiftRows (st.map sb)) (roundKeyBytes ws 14)

/-- Split a byte list into successive 16-byte blocks (fuelled by the
byte count so the kernel can evaluate it). -/
def chunks16Go : Nat → List Nat → List (List Nat)
  | _, [] => []
  | 0, _ => []
  | fuel + 1, b :: rest => ((b :: rest).take 16) :: chunks16Go fuel ((b :: rest).drop 16)

/-- Split a byte list into successive 16-byte blocks. -/
def chunks16 (l : List Nat) : List (List Nat) := chunks16Go l.length l

/-- Zero-pad a byte list up to a multiple of 16 bytes. -/
def pad16 (bs : List Nat) : List Nat :=
  bs ++ List.replicate ((16 - bs.length % 16) % 16) 0

/-- Multiplication in GF(2^128) with the GCM reduction polynomial. -/
def gmul (x y : Nat) : Nat :=
  ((List.range 128).foldl
    (fun zv i =>
      (if x / 2 ^ (127 - i) % 2 = 1 then zv.1 ^^^ zv.2 else zv.1,
       if zv.2 % 2 = 1 then zv.2 / 2 ^^^ 0xE1000000000000000000000000000000
       else zv.2 / 2))
    (0, y)).1

/-- GHASH over a list of 128-bit blocks. -/
def ghash (h : Nat) (blocks : List Nat) : Nat :=
  blocks.foldl (fun y b => gmul (y ^^^ b) h) 0

/-- The pre-counter block: `IV ‖ 0^31 ‖ 1` for a 12-byte IV, the GHASH of
the padded IV and its bit length otherwise. -/
def gcmJ0 (h : Nat) (iv : List Nat) : Nat :=
  if iv.length = 12 then bytesToNatBE iv * 4294967296 + 1
  else ghash h ((chunks16 (pad16 iv)).map bytesToNatBE ++
    [8 * iv.length % 18446744073709551616])

/-- Increment the low 32 bits of a counter block by `i`. -/
def inc32 (j i : Nat) : Nat := j / 4294967296 * 4294967296 + (j + i) % 4294967296

/-- The first `n` CTR keystream bytes for counter blocks `J0+1, J0+2, …`. -/
def gcmKeystream (ws : List Nat) (j0 n : Nat) : List Nat :=
  ((List.range ((n + 15) / 16)).flatMap
    fun i => aesBlock ws (natToBytesBE 16 (inc32 j0 (i + 1)))).take n

/-- The GHASH input for a tag over ciphertext `ct` with no associated
data: the padded ciphertext blocks and the 64-bit lengths block. -/
def gcmTagBlocks (ct : List Nat) : List Nat :=
  (chunks16 (pad16 ct)).map bytesToNatBE ++ [8 * ct.length % 18446744073709551616]

/-- The 16-byte GCM authentication tag over `ct`. -/
def gcmTag (ws : List Nat) (h j0 : Nat) (ct : List Nat) : List Nat :=
  List.zipWith xorB (aesBlock ws (natToBytesBE 16 j0))
    (natToBytesBE 16 (ghash h (gcmTagBlocks ct)))

/-- The GHASH key `H = AES_K(0^128)`. -/
def gcmH (key : List Nat) : Nat :=
  bytesToNatBE (aesBlock (keyExpansion key) (List.replicate 16 0))

/-- The GCM ciphertext: plaintext XOR keystream. -/
def gcmCt (key iv pt : List Nat) : List Nat :=
  List.zipWith xorB pt (gcmKeystream (keyExpansion key) (gcmJ0 (gcmH key) iv) pt.length)

/-- `crypto.subtle.encrypt({name: 'AES-GCM', iv}, key, pt)`: the
ciphertext and the 16-byte tag it is concatenated with. -/
def gcmEncrypt (key iv pt : List Nat) : List Nat × List Nat :=
  (gcmCt key iv pt,
    gcmTag (keyExpansion key) (gcmH key) (gcmJ0 (gcmH key) iv) (gcmCt key iv pt))

/-- `crypto.subtle.decrypt`: `none` models the thrown `OperationError`
(empty IV, data shorter than the tag, or tag mismatch). -/
def gcmDecrypt (key iv data : List Nat) : Option (List Nat) :=
  if iv.length = 0 then none
  else if data.length < 16 then none
  else if gcmTag (keyExpansion key) (gcmH key) (gcmJ0 (gcmH key) iv)
      (data.take (data.length - 16)) = data.drop (data.length - 16) then
    some (List.zipWith xorB (data.take (data.length - 16))
      (gcmKeystream (keyExpansion key) (gcmJ0 (gcmH key) iv)
        (data.take (data.length - 16)).length))
  else none

/-! ## The envelope codec (`encrypt` / `decrypt` in the edge functions) -/

/-- `encrypt(plaintext)`: hex(iv) `:` hex(ciphertext ‖ tag).  The fresh
random 12-byte IV the source draws is passed in explicitly. -/
def encryptField (key iv : List Nat) (plaintext : String) : String :=
  String.mk ((toHex iv).data ++ ':' ::
    (toHex ((gcmEncrypt key iv (utf8Encode plaintext)).1 ++
      (gcmEncrypt key iv (utf8Encode plaintext)).2)).data)

/-- `const [a, b] = s.split(sep)`: the first two split segments. -/
def splitFirstTwo (s : String) (sep : Char) : String × String :=
  (String.mk (s.data.takeWhile (· ≠ sep)),
   String.mk (((s.data.dropWhile (· ≠ sep)).drop 1).takeWhile (· ≠ sep)))

/-- `decrypt(stored)`: legacy passthrough without a `:`; with one, hex
parse failures, Web Crypto errors and tag failures all fall back to the
stored string. -/
def decryptField (key : List Nat) (stored : String) : String :=
  if ¬ jsIncludes stored ':' then stored
  else
    match fromHex (splitFirstTwo stored ':').1, fromHex (splitFirstTwo stored ':').2 with
    | some iv, some ct =>
      match gcmDecrypt key iv ct with
      | some pt => utf8DecodeString pt
      | none => stored
    | _, _ => stored

/-! ## PIN generation (`generatePin`, identical in `handle-inbound-sms`
and `admin-data`) -/

/-- One base-36 digit as `Number.prototype.toString(36)` renders it. -/
def digit36 (d : Nat) : Char :=
  if d < 10 then Char.ofNat (48 + d) else Char.ofNat (87 + d)

/-- Base-36 digits of a positive number, most significant first. -/
def toBase36 : Nat → List Char
  | 0 => []
  | n + 1 => toBase36 ((n + 1) / 36) ++ [digit36 ((n + 1) % 36)]
  termination_by n => n
  decreasing_by omega

/-- `num.toString(36)` (returns `"0"` for zero). -/
def jsToString36 (n : Nat) : List Char := if n = 0 then ['0'] else toBase36 n

/-- `generatePin()` on the four random bytes the source draws:
`getUint32` big-endian, base-36, last 6 characters, uppercased,
left-padded with `'0'` to length 6. -/
def generatePin (b0 b1 b2 b3 : Nat) : String :=
  let s := jsToString36 (b0 * 16777216 + b1 * 65536 + b2 * 256 + b3)
  let last6 := (s.drop (s.length - 6)).map jsToUpperChar
  String.mk (List.replicate (6 - last6.length) '0' ++ last6)

/-! ## E.164 normalisation (`normalisePhone`) -/

/-- `normalisePhone`: trim, strip `[\s\-\.\(\)]`, strip one leading `+`,
require 7–15 digits, then re-prefix. -/
def normalisePhone (raw : String) : Option String :=
  let stripped := (jsTrim raw).data.filter
    fun c => ¬ (jsWhitespace c || c = '-' || c = '.' || c = '(' || c = ')')
  let digits := match stripped with
    | '+' :: rest => rest
    | l => l
  if ¬ (7 ≤ digits.length ∧ digits.length ≤ 15 ∧
      digits.all fun c => decide ('0' ≤ c ∧ c ≤ '9')) then none
  else if stripped.headD ' ' = '+' then some (String.mk stripped)
  else if digits.length = 10 then some (String.mk ('+' :: '1' :: digits))
  else if digits.length = 11 ∧ digits.headD ' ' = '1' then some (String.mk ('+' :: digits))
  else some (String.mk ('+' :: digits))

/-! ## The `handle-inbound-sms` request handler

The handler is embedded as a pure function from the request data and an
environment (env vars, the subscriber rows the `select` would return, the
Claude-parse oracle, the random bytes drawn, the upsert outcome) to the
HTTP response and the ordered list of storage operations performed. -/

/-- An HTTP response: status and body. -/
structure Response where
  status : Nat
  body : String
deriving DecidableEq, Repr

/-- A storage operation of `handle-inbound-sms`. -/
inductive IEffect
  | selectSubscribers
  | updateActive (id : Nat) (active : Bool)
  | insertInbound (fromNumber body : String)
  | upsertPin (code : String) (label : Option String)
  | upsertSubscriber (name phone pin : String) (howMet : Option String)
deriving DecidableEq, Repr

/-- A subscriber row as `select id, phone` returns it. -/
structure Subscriber where
  id : Nat
  phone : String
deriving DecidableEq, Repr

/-- What `parseSubscriber` (the Claude call) extracted. -/
structure ParsedSub where
  name : Option String
  phone : Option String
  how_met : Option String

/-- The environment of one `handle-inbound-sms` invocation. -/
structure InboundCtx where
  authToken : String
  anthonyPhone : String
  encKey : List Nat
  subscribers : List Subscriber
  oracle : String → ParsedSub
  pinBytes : Nat × Nat × Nat × Nat
  ivName : List Nat
  ivPhone : List Nat
  ivHow : List Nat
  upsertError : Option String

/-- A TwiML reply (status 200, XML body). -/
def twiml (xml : String) : Response := ⟨200, xml⟩

/-- `${x}` interpolation of a nullable string. -/
def jsShowNullable : Option String → String
  | some s => s
  | none => "null"

/-- The decrypt-and-compare scan of the STOP/START handlers: the first
subscriber whose decrypted phone equals the sender. -/
def findMatch (key : List Nat) (subs : List Subscriber) (target : String) :
    Option Subscriber :=
  subs.find? fun s => decryptField key s.phone == target

/-- The `serve` handler of `handle-inbound-sms`. -/
def handleInbound (ctx : InboundCtx) (url rawBody : String) (sig : Option String) :
    Response × List IEffect :=
  if verifyTwilio ctx.authToken url rawBody sig = false then
    (⟨403, "Forbidden"⟩, [])
  else
    let params := parseForm rawBody
    let fromN := match getParam params "From" with
      | some v => jsTrim v
      | none => ""
    let body := match getParam params "Body" with
      | some v => jsTrim v
      | none => ""
    let cmd := jsToUpper body
    if ["STOP", "STOPALL", "UNSUBSCRIBE", "CANCEL", "END", "QUIT"].contains cmd then
      (twiml "<Response><Message>You\x27ve been unsubscribed. Reply START anytime.</Message></Response>",
        IEffect.selectSubscribers ::
          match findMatch ctx.encKey ctx.subscribers fromN with
          | some s => [IEffect.updateActive s.id false]
          | none => [])
    else if ["START", "YES", "UNSTOP"].contains cmd then
      (twiml "<Response><Message>You\x27re back on the list.</Message></Response>",
        IEffect.selectSubscribers ::
          match findMatch ctx.encKey ctx.subscribers fromN with
          | some s => [IEffect.updateActive s.id true]
          | none => [])
    else if fromN = ctx.anthonyPhone then
      let parsed := ctx.oracle body
      if parsed.name = none ∧ parsed.phone = none then
        (twiml "<Response><Message>Stored. Didn\x27t look like a subscriber — check admin.</Message></Response>",
          [IEffect.insertInbound fromN body])
      else
        match (match parsed.phone with
          | some p => normalisePhone p
          | none => none) with
        | none =>
          (twiml ("<Response><Message>Got \"" ++ jsShowNullable parsed.name ++
            "\" but couldn\x27t parse a phone. Try: Name +1234567890 context.</Message></Response>"),
            [])
        | some e164 =>
          let pin := generatePin ctx.pinBytes.1 ctx.pinBytes.2.1 ctx.pinBytes.2.2.1
            ctx.pinBytes.2.2.2
          let encName := encryptField ctx.encKey ctx.ivName (parsed.name.getD "")
          let encPhone := encryptField ctx.encKey ctx.ivPhone e164
          let encHow := parsed.how_met.map (encryptField ctx.encKey ctx.ivHow)
          let effs := [IEffect.upsertPin pin parsed.name,
            IEffect.upsertSubscriber encName encPhone pin encHow]
          match ctx.upsertError with
          | some m =>
            (twiml ("<Response><Message>Error: " ++ m ++ "</Message></Response>"), effs)
          | none =>
            let ctxt := match parsed.how_met with
              | some hm => "\nContext: " ++ hm
              | none => ""
            (twiml ("<Response><Message>✓ Added " ++ jsShowNullable parsed.name ++ " ("
              ++ e164 ++ ")" ++ ctxt ++ "\n\nPIN: " ++ pin ++
              "\n\nShare: \"machu.la — PIN is " ++ pin ++ "\"</Message></Response>"), effs)
    else
      (twiml "<Response></Response>", [IEffect.insertInbound fromN body])

/-! ## The `verify-pin` handler and its fixed-window rate limiter -/

/-- `rate_limits` row: `count` and `window_start` (epoch milliseconds). -/
structure RateRow where
  count : Nat
  window_start : Nat
deriving DecidableEq, Repr

/-- 5 minutes in milliseconds. -/
def WINDOW_MS : Nat := 5 * 60 * 1000

/-- Maximum attempts per window. -/
def MAX_ATTEMPTS : Nat := 10

/-- The rate limiter's two outcomes. -/
inductive RLOutcome
  | allowed
  | throttled
deriving DecidableEq, Repr

/-- One rate-limit decision (lines 63–92 of `verify-pin`): the outcome and
the row the store holds afterwards.  The same-window test is
`window_start > now - WINDOW_MS`, written additively for `Nat`. -/
def rlStep (existing : Option RateRow) (now : Nat) : RLOutcome × Option RateRow :=
  match existing with
  | some r =>
    if now < r.window_start + WINDOW_MS then
      if MAX_ATTEMPTS ≤ r.count then (RLOutcome.throttled, some r)
      else (RLOutcome.allowed, some ⟨r.count + 1, r.window_start⟩)
    else (RLOutcome.allowed, some ⟨1, now⟩)
  | none => (RLOutcome.allowed, some ⟨1, now⟩)

/-- Run a sequence of calls at the given times through the limiter. -/
def runCalls : Option RateRow → List Nat → List RLOutcome × Option RateRow
  | row, [] => ([], row)
  | row, t :: ts =>
    ((rlStep row t).1 :: (runCalls (rlStep row t).2 ts).1,
      (runCalls (rlStep row t).2 ts).2)

theorem runCalls_nil (row : Option RateRow) : runCalls row [] = ([], row) := rfl

theorem runCalls_cons (row : Option RateRow) (t : Nat) (ts : List Nat) :
    runCalls row (t :: ts) =
      ((rlStep row t).1 :: (runCalls (rlStep row t).2 ts).1,
        (runCalls (rlStep row t).2 ts).2) := rfl

/-- A storage operation of `verify-pin`. -/
inductive VEffect
  | rateSelect (key : String)
  | rateUpdate (key : String) (count : Nat)
  | rateReset (key : String) (count ws : Nat)
  | rateInsert (key : String) (count ws : Nat)
  | pinsSelect (code : String)
deriving DecidableEq, Repr

/-- The store as `verify-pin` sees it. -/
structure VerifyPinDb where
  rate : String → Option RateRow
  pins : List String

/-- `JSON.stringify({valid: false})`. -/
def jsonValidFalse : String := "\x7b\"valid\":false\x7d"

/-- `JSON.stringify({valid: true})`. -/
def jsonValidTrue : String := "\x7b\"valid\":true\x7d"

/-- The `pins` lookup and final response shared by every allowed branch. -/
def pinsLookup (db : VerifyPinDb) (pin : String) (effs : List VEffect) :
    Response × List VEffect :=
  (⟨200, if db.pins.contains pin then jsonValidTrue else jsonValidFalse⟩,
    effs ++ [VEffect.pinsSelect pin])

/-- The `serve` handler of `verify-pin`.  `bodyPin = none` models a JSON
parse failure (the `catch` path); `some pinField` carries the request's
`pin` field after JavaScript string coercion, `none` meaning absent. -/
def verifyPinHandler (db : VerifyPinDb) (method : String)
    (bodyPin : Option (Option String)) (xff : Option String) (now : Nat) :
    Response × List VEffect :=
  if method = "OPTIONS" then (⟨200, "ok"⟩, [])
  else if method ≠ "POST" then (⟨405, "\x7b\"error\":\"Method not allowed\"\x7d"⟩, [])
  else
    match bodyPin with
    | none => (⟨400, jsonValidFalse⟩, [])
    | some pinField =>
      let pin := jsToUpper (jsTrim (pinField.getD ""))
      if pin = "" then (⟨200, jsonValidFalse⟩, [])
      else
        let ip := match xff with
          | some v => jsTrim (String.mk ((splitOnChar ',' v.data).headD []))
          | none => "unknown"
        let rlKey := ip ++ ":verify-pin"
        match db.rate rlKey with
        | some r =>
          if now < r.window_start + WINDOW_MS then
            if MAX_ATTEMPTS ≤ r.count then
              (⟨429, jsonValidFalse⟩, [VEffect.rateSelect rlKey])
            else
              pinsLookup db pin [VEffect.rateSelect rlKey,
                VEffect.rateUpdate rlKey (r.count + 1)]
          else
            pinsLookup db pin [VEffect.rateSelect rlKey, VEffect.rateReset rlKey 1 now]
        | none =>
          pinsLookup db pin [VEffect.rateSelect rlKey, VEffect.rateInsert rlKey 1 now]

/-! ## Structural lemmas about AES-256-GCM -/

theorem foldl_snoc_length (f : List Nat → Nat → Nat) (n : Nat) (init : List Nat) :
    ((List.range n).foldl (fun ws i => ws ++ [f ws i]) init).length = init.length + n := by
  induction n with
  | zero => simp
  | succ n ih =>
    rw [List.range_succ, List.foldl_append]
    simp [ih]
    omega

theorem keyExpansion_length (key : List Nat) : (keyExpansion key).length = 60 := by
  unfold keyExpansion
  rw [foldl_snoc_length]
  simp

theorem flatMap_natToBytesBE4_length (l : List Nat) :
    (l.flatMap (natToBytesBE 4)).length = 4 * l.length := by
  induction l with
  | nil => rfl
  | cons x xs ih =>
    rw [List.flatMap_cons, List.length_append, natToBytesBE_length, ih, List.length_cons]
    ring

theorem roundKeyBytes_length (ws : List Nat) (r : Nat) (hws : ws.length = 60)
    (hr : r ≤ 14) : (roundKeyBytes ws r).length = 16 := by
  unfold roundKeyBytes
  rw [flatMap_natToBytesBE4_length, List.length_take, List.length_drop, hws]
  omega

theorem shiftRows_length (s : List Nat) : (shiftRows s).length = 16 := by
  simp [shiftRows]

theorem aesBlock_length (ws input : List Nat) (hws : ws.length = 60) :
    (aesBlock ws input).length = 16 := by
  unfold aesBlock
  rw [List.length_zipWith, shiftRows_length, roundKeyBytes_length ws 14 hws (by omega)]
  rfl

theorem aesBlock_mem_lt (ws input : List Nat) : ∀ x ∈ aesBlock ws input, x < 256 := by
  unfold aesBlock
  exact mem_zipWith_xorB_lt _ _

theorem flatMap_aes_length (ws : List Nat) (hws : ws.length = 60) (m : Nat)
    (g : Nat → List Nat) :
    ((List.range m).flatMap fun i => aesBlock ws (g i)).length = 16 * m := by
  induction m with
  | zero => rfl
  | succ m ih =>
    rw [List.range_succ, List.flatMap_append, List.length_append, ih]
    simp [aesBlock_length ws _ hws]
    ring

theorem gcmKeystream_length (ws : List Nat) (j0 n : Nat) (hws : ws.length = 60) :
    (gcmKeystream ws j0 n).length = n := by
  unfold gcmKeystream
  rw [List.length_take, flatMap_aes_length ws hws _ _]
  omega

theorem gcmKeystream_mem_lt (ws : List Nat) (j0 n : Nat) :
    ∀ b ∈ gcmKeystream ws j0 n, b < 256 := by
  intro b hb
  unfold gcmKeystream at hb
  have hb2 := List.take_subset _ _ hb
  rw [List.mem_flatMap] at hb2
  obtain ⟨i, _, hbi⟩ := hb2
  exact aesBlock_mem_lt _ _ b hbi

theorem gcmTag_length (ws : List Nat) (h j0 : Nat) (ct : List Nat) (hws : ws.length = 60) :
    (gcmTag ws h j0 ct).length = 16 := by
  unfold gcmTag
  rw [List.length_zipWith, aesBlock_length ws _ hws, natToBytesBE_length]
  rfl

theorem gcmTag_mem_lt (ws : List Nat) (h j0 : Nat) (ct : List Nat) :
    ∀ b ∈ gcmTag ws h j0 ct, b < 256 := by
  unfold gcmTag
  exact mem_zipWith_xorB_lt _ _

theorem gcmCt_length (key iv pt : List Nat) : (gcmCt key iv pt).length = pt.length := by
  unfold gcmCt
  rw [List.length_zipWith, gcmKeystream_length _ _ _ (keyExpansion_length key)]
  omega

theorem gcmCt_mem_lt (key iv pt : List Nat) : ∀ b ∈ gcmCt key iv pt, b < 256 := by
  unfold gcmCt
  exact mem_zipWith_xorB_lt _ _

/-- GCM round trip: decrypting `ciphertext ‖ tag` under the same key and
IV recovers the plaintext. -/
theorem gcmDecrypt_gcmEncrypt (key iv pt : List Nat) (hiv : iv.length ≠ 0)
    (hpt : ∀ b ∈ pt, b < 256) :
    gcmDecrypt key iv (gcmCt key iv pt ++ gcmTag (keyExpansion key) (gcmH key)
      (gcmJ0 (gcmH key) iv) (gcmCt key iv pt)) = some pt := by
  have hws : (keyExpansion key).length = 60 := keyExpansion_length key
  have hctl : (gcmCt key iv pt).length = pt.length := gcmCt_length key iv pt
  have htagl : (gcmTag (keyExpansion key) (gcmH key) (gcmJ0 (gcmH key) iv)
      (gcmCt key iv pt)).length = 16 := gcmTag_length _ _ _ _ hws
  have hdl : (gcmCt key iv pt ++ gcmTag (keyExpansion key) (gcmH key)
      (gcmJ0 (gcmH key) iv) (gcmCt key iv pt)).length = pt.length + 16 := by
    rw [List.length_append, hctl, htagl]
  have hsub : (gcmCt key iv pt ++ gcmTag (keyExpansion key) (gcmH key)
      (gcmJ0 (gcmH key) iv) (gcmCt key iv pt)).length - 16 = (gcmCt key iv pt).length := by
    omega
  have htake : (gcmCt key iv pt ++ gcmTag (keyExpansion key) (gcmH key)
      (gcmJ0 (gcmH key) iv) (gcmCt key iv pt)).take
      ((gcmCt key iv pt ++ gcmTag (keyExpansion key) (gcmH key)
        (gcmJ0 (gcmH key) iv) (gcmCt key iv pt)).length - 16) = gcmCt key iv pt := by
    rw [hsub, List.take_left]
  have hdrop : (gcmCt key iv pt ++ gcmTag (keyExpansion key) (gcmH key)
      (gcmJ0 (gcmH key) iv) (gcmCt key iv pt)).drop
      ((gcmCt key iv pt ++ gcmTag (keyExpansion key) (gcmH key)
        (gcmJ0 (gcmH key) iv) (gcmCt key iv pt)).length - 16)
      = gcmTag (keyExpansion key) (gcmH key) (gcmJ0 (gcmH key) iv) (gcmCt key iv pt) := by
    rw [hsub, List.drop_left]
  have hct : gcmCt key iv pt = List.zipWith xorB pt
      (gcmKeystream (keyExpansion key) (gcmJ0 (gcmH key) iv) pt.length) := by
    unfold gcmCt
    rfl
  have hinvol : List.zipWith xorB (gcmCt key iv pt)
      (gcmKeystream (keyExpansion key) (gcmJ0 (gcmH key) iv) pt.length) = pt := by
    conv_lhs => rw [hct]
    exact zipWith_xorB_invol pt _ hpt (gcmKeystream_mem_lt _ _ _)
      (by rw [gcmKeystream_length _ _ _ hws])
  unfold gcmDecrypt
  rw [if_neg hiv, if_neg (by omega), htake, hdrop, if_pos rfl, hctl, hinvol]

/-! ## Envelope round trip and fallback -/

theorem gcmEncrypt_eq (key iv pt : List Nat) :
    gcmEncrypt key iv pt = (gcmCt key iv pt,
      gcmTag (keyExpansion key) (gcmH key) (gcmJ0 (gcmH key) iv) (gcmCt key iv pt)) := by
  unfold gcmEncrypt
  rfl

theorem takeWhile_append_cons {p : Char → Bool} (l1 : List Char) (c : Char)
    (l2 : List Char) (h : ∀ x ∈ l1, p x = true) (hc : p c = false) :
    (l1 ++ c :: l2).takeWhile p = l1 ∧ (l1 ++ c :: l2).dropWhile p = c :: l2 := by
  induction l1 with
  | nil => simp [List.takeWhile_cons, List.dropWhile_cons, hc]
  | cons a l1 ih =>
    have ha : p a = true := h a (by simp)
    have := ih fun x hx => h x (List.mem_cons_of_mem _ hx)
    simp only [List.cons_append, List.takeWhile_cons, List.dropWhile_cons, ha, if_true]
    exact ⟨by rw [this.1], by rw [this.2]⟩

theorem takeWhile_eq_self {p : Char → Bool} (l : List Char)
    (h : ∀ x ∈ l, p x = true) : l.takeWhile p = l := by
  induction l with
  | nil => rfl
  | cons a l ih =>
    have ha : p a = true := h a (by simp)
    simp only [List.takeWhile_cons, ha, if_true]
    rw [ih fun x hx => h x (List.mem_cons_of_mem _ hx)]

theorem mem_flatMap_byteHexChars {bs : List Nat} (hb : ∀ b ∈ bs, b < 256) :
    ∀ x ∈ bs.flatMap byteHexChars, ∃ d, d < 16 ∧ x = hexDigit d := by
  intro x hx
  rw [List.mem_flatMap] at hx
  obtain ⟨b, hbin, hxin⟩ := hx
  have hblt := hb b hbin
  unfold byteHexChars at hxin
  simp only [List.mem_cons, List.mem_singleton, List.not_mem_nil, or_false] at hxin
  rcases hxin with h | h
  · exact ⟨b / 16, by omega, h⟩
  · exact ⟨b % 16, by omega, h⟩

theorem hexChars_ne_colon {bs : List Nat} (hb : ∀ b ∈ bs, b < 256) :
    ∀ x ∈ bs.flatMap byteHexChars, (decide (x ≠ ':') : Bool) = true := by
  intro x hx
  obtain ⟨d, hd, rfl⟩ := mem_flatMap_byteHexChars hb x hx
  exact decide_eq_true (hexDigit_ne_colon d hd)

/-- What `decrypt` does on a well-formed two-segment envelope whose two
hex halves come from byte lists. -/
theorem decryptField_hex_pair (key iv payload : List Nat)
    (hivne : iv ≠ []) (hivb : ∀ b ∈ iv, b < 256)
    (hpne : payload ≠ []) (hpb : ∀ b ∈ payload, b < 256) :
    decryptField key (String.mk ((toHex iv).data ++ ':' :: (toHex payload).data)) =
      match gcmDecrypt key iv payload with
      | some pt => utf8DecodeString pt
      | none => String.mk ((toHex iv).data ++ ':' :: (toHex payload).data) := by
  have hdata : (String.mk ((toHex iv).data ++ ':' :: (toHex payload).data)).data
      = iv.flatMap byteHexChars ++ ':' :: payload.flatMap byteHexChars := rfl
  have hinc : jsIncludes (String.mk ((toHex iv).data ++ ':' :: (toHex payload).data)) ':'
      = true := by
    unfold jsIncludes
    rw [hdata]
    exact List.elem_iff.mpr (by simp)
  have hcolon : (decide ((':' : Char) ≠ ':') : Bool) = false := by decide
  have hsplit1 : (splitFirstTwo (String.mk ((toHex iv).data ++ ':'
      :: (toHex payload).data)) ':').1 = toHex iv := by
    unfold splitFirstTwo
    rw [hdata]
    rw [(takeWhile_append_cons _ _ _ (hexChars_ne_colon hivb) hcolon).1]
    rfl
  have hsplit2 : (splitFirstTwo (String.mk ((toHex iv).data ++ ':'
      :: (toHex payload).data)) ':').2 = toHex payload := by
    unfold splitFirstTwo
    rw [hdata]
    rw [(takeWhile_append_cons _ _ _ (hexChars_ne_colon hivb) hcolon).2]
    rw [List.drop_one, List.tail_cons, takeWhile_eq_self _ (hexChars_ne_colon hpb)]
    rfl
  unfold decryptField
  rw [if_neg (not_not_intro hinc), hsplit1, hsplit2,
    fromHex_toHex iv hivne hivb, fromHex_toHex payload hpne hpb]

/-- Claim C2's statement: decrypting the envelope produced by encrypting
any string under the same key (and the drawn IV) yields the string. -/
theorem decryptField_encryptField (key iv : List Nat) (s : String)
    (hkeyl : key.length = 32) (hkeyb : ∀ b ∈ key, b < 256)
    (hivl : iv.length = 12) (hivb : ∀ b ∈ iv, b < 256) :
    decryptField key (encryptField key iv s) = s := by
  have hivne : iv ≠ [] := by
    intro h
    rw [h] at hivl
    simp at hivl
  have henc : encryptField key iv s = String.mk ((toHex iv).data ++ ':'
      :: (toHex (gcmCt key iv (utf8Encode s) ++ gcmTag (keyExpansion key) (gcmH key)
        (gcmJ0 (gcmH key) iv) (gcmCt key iv (utf8Encode s)))).data) := by
    unfold encryptField
    rw [gcmEncrypt_eq]
  have hpb : ∀ b ∈ gcmCt key iv (utf8Encode s) ++ gcmTag (keyExpansion key) (gcmH key)
      (gcmJ0 (gcmH key) iv) (gcmCt key iv (utf8Encode s)), b < 256 := by
    intro b hb
    rcases List.mem_append.mp hb with h | h
    · exact gcmCt_mem_lt key iv _ b h
    · exact gcmTag_mem_lt _ _ _ _ b h
  have hpne : gcmCt key iv (utf8Encode s) ++ gcmTag (keyExpansion key) (gcmH key)
      (gcmJ0 (gcmH key) iv) (gcmCt key iv (utf8Encode s)) ≠ [] := by
    intro h
    have := congrArg List.length h
    rw [List.length_append, gcmTag_length _ _ _ _ (keyExpansion_length key)] at this
    simp at this
  rw [henc, decryptField_hex_pair key iv _ hivne hivb hpne hpb,
    gcmDecrypt_gcmEncrypt key iv _ (by omega) (utf8Encode_lt s)]
  exact utf8DecodeString_encode s

/-- Unfolding of `decrypt` on a delimited stored string. -/
theorem decryptField_eq_match (key : List Nat) (stored : String)
    (hdelim : jsIncludes stored ':' = true) :
    decryptField key stored =
      match fromHex (splitFirstTwo stored ':').1, fromHex (splitFirstTwo stored ':').2 with
      | some iv, some ct =>
        (match gcmDecrypt key iv ct with
         | some pt => utf8DecodeString pt
         | none => stored)
      | _, _ => stored := by
  unfold decryptField
  rw [if_neg (not_not_intro hdelim)]

/-- Mutating one character of a list at a valid index to a different
character changes the list. -/
theorem list_set_ne (l : List Char) (i : Nat) (c : Char) (hi : i < l.length)
    (hc : c ≠ l.getD i ' ') : l.set i c ≠ l := by
  induction l generalizing i with
  | nil => simp at hi
  | cons a l ih =>
    cases i with
    | zero =>
      simp only [List.set_cons_zero]
      intro h
      exact hc (by simpa using congrArg (fun t => t.headD ' ') h)
    | succ i =>
      simp only [List.set_cons_succ]
      intro h
      exact ih i (by simpa using hi) (by simpa using hc) (by simpa using h)

theorem mutateAt_ne (s : String) (i : Nat) (c : Char) (hi : i < s.data.length)
    (hc : c ≠ s.data.getD i ' ') : mutateAt s i c ≠ s := by
  unfold mutateAt
  intro h
  exact list_set_ne s.data i c hi hc (congrArg String.data h)

/-! ## Rate limiter lemmas -/

theorem runCalls_append (row : Option RateRow) (l1 l2 : List Nat) :
    runCalls row (l1 ++ l2) =
      ((runCalls row l1).1 ++ (runCalls (runCalls row l1).2 l2).1,
        (runCalls (runCalls row l1).2 l2).2) := by
  induction l1 generalizing row with
  | nil => simp [runCalls]
  | cons t ts ih =>
    simp only [List.cons_append, runCalls, List.append_eq, ih]

/-- Any run of calls inside an active window that stays under the cap is
all `allowed` and just counts up. -/
theorem runCalls_within (t0 : Nat) (ts : List Nat) (c : Nat)
    (hts : ∀ t ∈ ts, t < t0 + WINDOW_MS) (hcap : c + ts.length ≤ MAX_ATTEMPTS) :
    runCalls (some ⟨c, t0⟩) ts =
      (List.replicate ts.length RLOutcome.allowed, some ⟨c + ts.length, t0⟩) := by
  induction ts generalizing c with
  | nil => simp [runCalls]
  | cons t ts ih =>
    have hw : t < t0 + WINDOW_MS := hts t (by simp)
    have hlt : ¬ MAX_ATTEMPTS ≤ c := by
      simp only [List.length_cons] at hcap
      unfold MAX_ATTEMPTS at hcap ⊢
      omega
    simp only [runCalls, rlStep, if_pos hw, if_neg hlt]
    rw [ih (c + 1) (fun x hx => hts x (List.mem_cons_of_mem _ hx))
      (by simp only [List.length_cons] at hcap; omega)]
    simp only [List.length_cons, List.replicate_succ]
    rw [show c + 1 + ts.length = c + (ts.length + 1) from by omega]

/-! ## First-match characterisation for `find?` -/

theorem find?_first {α : Type} (p : α → Bool) (l : List α) (a : α)
    (h : l.find? p = some a) :
    ∃ pre post, l = pre ++ a :: post ∧ ∀ x ∈ pre, p x = false := by
  induction l with
  | nil => simp [List.find?] at h
  | cons x xs ih =>
    by_cases hp : p x
    · rw [List.find?_cons_of_pos _ hp] at h
      obtain rfl : x = a := by simpa using h
      exact ⟨[], xs, rfl, by simp⟩
    · rw [List.find?_cons_of_neg _ hp] at h
      obtain ⟨pre, post, heq, hpre⟩ := ih h
      refine ⟨x :: pre, post, by rw [heq]; rfl, ?_⟩
      intro y hy
      rcases List.mem_cons.mp hy with rfl | hy2
      · simpa using hp
      · exact hpre y hy2

/-! ## PIN shape lemmas -/

theorem toBase36_chars (n : Nat) : ∀ c ∈ toBase36 n, ∃ d, d < 36 ∧ c = digit36 d := by
  induction n using Nat.strong_induction_on with
  | _ n ih =>
    cases n with
    | zero => simp [toBase36]
    | succ m =>
      intro c hc
      rw [toBase36] at hc
      rcases List.mem_append.mp hc with h | h
      · exact ih ((m + 1) / 36) (by omega) c h
      · rw [List.mem_singleton] at h
        exact ⟨(m + 1) % 36, by omega, h⟩

theorem jsToString36_chars (n : Nat) :
    ∀ c ∈ jsToString36 n, ∃ d, d < 36 ∧ c = digit36 d := by
  unfold jsToString36
  split
  · intro c hc
    rw [List.mem_singleton] at hc
    exact ⟨0, by omega, by simpa [digit36] using hc⟩
  · exact toBase36_chars n

theorem upper_digit36_range : ∀ d < 36,
    ('0' ≤ jsToUpperChar (digit36 d) ∧ jsToUpperChar (digit36 d) ≤ '9') ∨
    ('A' ≤ jsToUpperChar (digit36 d) ∧ jsToUpperChar (digit36 d) ≤ 'Z') := by decide

/-! ## Claim C1 -/

/-- Claim C1 (amended): verification round-trips against the signature
the code itself computes — `base64(HMAC-SHA1(secret, url ++ sorted keys
with first values, one entry per key occurrence))` — for every URL, body
and secret; any claimed signature different from the computed one (in
particular any single-byte mutation of it) is rejected; and a body whose
canonical string is unchanged (e.g. a mutation in a duplicated key's
shadowed second value) still verifies against the original signature. -/
theorem twilioVerify_amended :
    (∀ token url body, verifyTwilio token url body
      (some (expectedTwilioSignature token url body)) = true)
    ∧ (∀ token url body sig, sig ≠ expectedTwilioSignature token url body →
        verifyTwilio token url body (some sig) = false)
    ∧ (∀ token url body i c, i < (expectedTwilioSignature token url body).data.length →
        c ≠ (expectedTwilioSignature token url body).data.getD i ' ' →
        verifyTwilio token url body
          (some (mutateAt (expectedTwilioSignature token url body) i c)) = false)
    ∧ (∀ token url b1 b2, twilioCanonical url b2 = twilioCanonical url b1 →
        verifyTwilio token url b2 (some (expectedTwilioSignature token url b1)) = true) := by
  have htrue : ∀ token url body, verifyTwilio token url body
      (some (expectedTwilioSignature token url body)) = true := by
    intro token url body
    unfold verifyTwilio
    exact beq_self_eq_true _
  have hfalse : ∀ token url body sig, sig ≠ expectedTwilioSignature token url body →
      verifyTwilio token url body (some sig) = false := by
    intro token url body sig hne
    unfold verifyTwilio
    exact beq_eq_false_iff_ne.mpr fun h => hne h.symm
  refine ⟨htrue, hfalse, ?_, ?_⟩
  · intro token url body i c hi hc
    exact hfalse token url body _ (mutateAt_ne _ i c hi hc)
  · intro token url b1 b2 hcan
    unfold verifyTwilio expectedTwilioSignature
    rw [hcan]
    exact beq_self_eq_true _

set_option maxHeartbeats 4000000 in
set_option maxRecDepth 100000 in
/-- Claim C1 counterexample: with the duplicate-key body `a=1&a=2`, the
code's verifier rejects the signature computed by the spec's algorithm
(distinct keys), because the code canonicalises `url ++ "a1a1"` while the
spec's sign canonicalises `url ++ "a1"` — so the claimed round trip
`verify(url, body, sign(url, body, secret), secret) = true` fails. -/
theorem twilioVerify_spec_counterexample :
    verifyTwilio "k" "https://x/" "a=1&a=2"
      (some (signSpec "k" "https://x/" "a=1&a=2")) = false := by decide

set_option maxHeartbeats 4000000 in
set_option maxRecDepth 100000 in
/-- Witness for `twilioVerify_amended` at concrete inputs, including a
single-byte body mutation (`a=1&a=2` to `a=1&a=3`) that still verifies. -/
theorem twilioVerify_amended_witness :
    verifyTwilio "k" "u" "a=1" (some (expectedTwilioSignature "k" "u" "a=1")) = true
    ∧ verifyTwilio "k" "u" "a=1" (some "x") = false
    ∧ verifyTwilio "k" "u" "a=1"
        (some (mutateAt (expectedTwilioSignature "k" "u" "a=1") 0 '!')) = false
    ∧ verifyTwilio "k" "u" "a=1&a=3" (some (expectedTwilioSignature "k" "u" "a=1&a=2"))
        = true :=
  ⟨twilioVerify_amended.1 "k" "u" "a=1",
   twilioVerify_amended.2.1 "k" "u" "a=1" "x" (by decide),
   twilioVerify_amended.2.2.1 "k" "u" "a=1" 0 '!' (by decide) (by decide),
   twilioVerify_amended.2.2.2 "k" "u" "a=1&a=2" "a=1&a=3" (by decide)⟩

/-! ## Claim C2 -/

/-- Witness for `decryptField_encryptField`: a concrete 32-byte key,
12-byte IV and plaintext round-trip. -/
theorem decryptField_encryptField_witness :
    decryptField (List.range 32) (encryptField (List.range 32) (List.range 12) "hi ✓")
      = "hi ✓" :=
  decryptField_encryptField (List.range 32) (List.range 12) "hi ✓" (by decide)
    (by decide) (by decide) (by decide)

/-! ## Claim C3 -/

/-- Claim C3: whenever signature verification fails, the inbound-SMS
handler answers with the generic `403 Forbidden` response and performs no
storage operation at all — the effect list is empty, so no subscriber,
`inbound_sms` or `pins` row is read or written. -/
theorem handleInbound_rejects_invalid_signature (ctx : InboundCtx) (url rawBody : String)
    (sig : Option String) (h : verifyTwilio ctx.authToken url rawBody sig = false) :
    handleInbound ctx url rawBody sig = (⟨403, "Forbidden"⟩, []) := by
  unfold handleInbound
  rw [if_pos h]

/-- Witness for `handleInbound_rejects_invalid_signature`: a request with
no signature header is rejected with no effects. -/
theorem handleInbound_rejects_invalid_signature_witness :
    handleInbound ⟨"t", "+1", [], [], fun _ => ⟨none, none, none⟩, (0, 0, 0, 0), [], [],
      [], none⟩ "u" "b" none = (⟨403, "Forbidden"⟩, []) :=
  handleInbound_rejects_invalid_signature _ "u" "b" none rfl

/-! ## Claim C4 -/

/-- Claim C4: on every stored string containing the delimiter, `decrypt`
(a total function — the `try`/`catch` is modelled by `Option`) either
fully succeeds — both hex halves parse and AES-GCM decryption
authenticates, and the result is the decoded plaintext — or returns the
original stored string verbatim. -/
theorem decryptField_all_or_nothing (key : List Nat) (stored : String)
    (hdelim : jsIncludes stored ':' = true) :
    decryptField key stored = stored ∨
    ∃ iv ct pt, fromHex (splitFirstTwo stored ':').1 = some iv ∧
      fromHex (splitFirstTwo stored ':').2 = some ct ∧
      gcmDecrypt key iv ct = some pt ∧
      decryptField key stored = utf8DecodeString pt := by
  cases h1 : fromHex (splitFirstTwo stored ':').1 with
  | none =>
    cases h2 : fromHex (splitFirstTwo stored ':').2 with
    | none => left; rw [decryptField_eq_match key stored hdelim, h1, h2]
    | some ct => left; rw [decryptField_eq_match key stored hdelim, h1, h2]
  | some iv =>
    cases h2 : fromHex (splitFirstTwo stored ':').2 with
    | none => left; rw [decryptField_eq_match key stored hdelim, h1, h2]
    | some ct =>
      cases h3 : gcmDecrypt key iv ct with
      | none =>
        left
        rw [decryptField_eq_match key stored hdelim, h1, h2]
        dsimp only
        rw [h3]
      | some pt =>
        right
        refine ⟨iv, ct, pt, rfl, rfl, h3, ?_⟩
        rw [decryptField_eq_match key stored hdelim, h1, h2]
        dsimp only
        rw [h3]

/-- Witness for `decryptField_all_or_nothing`: `"a:b"` has a delimiter
but its first hex half cannot parse, so the fallback branch holds. -/
theorem decryptField_all_or_nothing_witness :
    decryptField [] "a:b" = "a:b" ∨
    ∃ iv ct pt, fromHex (splitFirstTwo "a:b" ':').1 = some iv ∧
      fromHex (splitFirstTwo "a:b" ':').2 = some ct ∧
      gcmDecrypt [] iv ct = some pt ∧
      decryptField [] "a:b" = utf8DecodeString pt :=
  decryptField_all_or_nothing [] "a:b" (by decide)

/-! ## Claim C5 -/

/-- Claim C5: a stored value with no `:` delimiter is returned unchanged
by `decrypt`, as the legacy-plaintext passthrough, never an error. -/
theorem decryptField_legacy_passthrough (key : List Nat) (s : String)
    (h : jsIncludes s ':' = false) : decryptField key s = s := by
  unfold decryptField
  rw [if_pos (by rw [h]; simp)]

/-- Witness for `decryptField_legacy_passthrough`. -/
theorem decryptField_legacy_passthrough_witness :
    decryptField [] "hello world" = "hello world" :=
  decryptField_legacy_passthrough [] "hello world" (by decide)

/-! ## Claim C6 -/

/-- Claim C6: starting with no row, ten calls inside one 5-minute window
are all `allowed`, with the stored count reaching 10 and `window_start`
staying at the first call's time; the eleventh call in the same window is
`throttled` with the row unchanged; and a call at or after
`window_start + 5min` is `allowed` with the counter reset to 1 and a
fresh `window_start`. -/
theorem rateLimiter_boundary (t0 : Nat) (mid : List Nat) (tlast tnext : Nat)
    (hmid : mid.length = 9) (hin : ∀ t ∈ mid, t < t0 + WINDOW_MS)
    (hlast : tlast < t0 + WINDOW_MS) (hnext : t0 + WINDOW_MS ≤ tnext) :
    runCalls none (t0 :: mid ++ [tlast]) =
      (List.replicate 10 RLOutcome.allowed ++ [RLOutcome.throttled],
        some ⟨10, t0⟩)
    ∧ rlStep (some ⟨10, t0⟩) tnext = (RLOutcome.allowed, some ⟨1, tnext⟩) := by
  have h0 : rlStep none t0 = (RLOutcome.allowed, some ⟨1, t0⟩) := rfl
  have hmain : runCalls (some ⟨1, t0⟩) mid =
      (List.replicate 9 RLOutcome.allowed, some ⟨10, t0⟩) := by
    have := runCalls_within t0 mid 1 hin (by rw [hmid]; decide)
    rw [this, hmid]
  have hthrottle : rlStep (some ⟨10, t0⟩) tlast = (RLOutcome.throttled, some ⟨10, t0⟩) := by
    unfold rlStep
    dsimp only
    rw [if_pos hlast, if_pos (by decide)]
  have hfirst : runCalls none (t0 :: mid) =
      (RLOutcome.allowed :: List.replicate 9 RLOutcome.allowed, some ⟨10, t0⟩) := by
    rw [runCalls_cons, h0]
    dsimp only
    rw [hmain]
  have hlastc : runCalls (some ⟨10, t0⟩) [tlast] = ([RLOutcome.throttled], some ⟨10, t0⟩) := by
    rw [runCalls_cons, hthrottle]
    dsimp only
    rw [runCalls_nil]
  constructor
  · rw [runCalls_append, hfirst]
    dsimp only
    rw [hlastc]
    simp [List.replicate_succ]
  · unfold rlStep
    dsimp only
    rw [if_neg (by omega)]

/-- Witness for `rateLimiter_boundary`: eleven calls at time 0 and one at
`0 + 5min + 1ms`. -/
theorem rateLimiter_boundary_witness :
    runCalls none (0 :: List.replicate 9 0 ++ [0]) =
      (List.replicate 10 RLOutcome.allowed ++ [RLOutcome.throttled], some ⟨10, 0⟩)
    ∧ rlStep (some ⟨10, 0⟩) 300001 = (RLOutcome.allowed, some ⟨1, 300001⟩) :=
  rateLimiter_boundary 0 (List.replicate 9 0) 0 300001 (by decide) (by decide)
    (by decide) (by decide)

/-! ## Claim C7 -/

/-- Claim C7: the decrypt-and-compare matcher returns the first record
whose decrypted identifier equals the target exactly (the records before
it all decrypt to something different), and returns `none` exactly when
no record's decrypted identifier equals the target — a valid outcome,
not an error. -/
theorem findMatch_first_decrypted_equal (key : List Nat) (subs : List Subscriber)
    (target : String) :
    (∀ r, findMatch key subs target = some r →
      decryptField key r.phone = target ∧
      ∃ pre post, subs = pre ++ r :: post ∧
        ∀ q ∈ pre, decryptField key q.phone ≠ target)
    ∧ (findMatch key subs target = none ↔
        ∀ r ∈ subs, decryptField key r.phone ≠ target) := by
  constructor
  · intro r hr
    unfold findMatch at hr
    constructor
    · have := List.find?_some hr
      simpa using this
    · obtain ⟨pre, post, heq, hpre⟩ := find?_first _ subs r hr
      refine ⟨pre, post, heq, fun q hq => ?_⟩
      have := hpre q hq
      simpa using this
  · unfold findMatch
    rw [List.find?_eq_none]
    constructor
    · intro h r hr
      have := h r hr
      simpa using this
    · intro h r hr
      have := h r hr
      simpa using this

/-- Witness for `findMatch_first_decrypted_equal` on the spec's three
legacy-plaintext records: the second record matches `+4917612345`, and an
unknown number matches nothing. -/
theorem findMatch_first_decrypted_equal_witness :
    (decryptField [] (Subscriber.mk 2 "+4917612345").phone = "+4917612345" ∧
      ∃ pre post, ([⟨1, "+16475551234"⟩, ⟨2, "+4917612345"⟩, ⟨3, "+13065559999"⟩]
          : List Subscriber) = pre ++ ⟨2, "+4917612345"⟩ :: post ∧
        ∀ q ∈ pre, decryptField [] q.phone ≠ "+4917612345")
    ∧ findMatch [] [⟨1, "+16475551234"⟩, ⟨2, "+4917612345"⟩, ⟨3, "+13065559999"⟩]
        "+10000000000" = none :=
  ⟨(findMatch_first_decrypted_equal [] _ "+4917612345").1 ⟨2, "+4917612345"⟩ (by decide),
   (findMatch_first_decrypted_equal [] _ "+10000000000").2.mpr (by decide)⟩

/-! ## Claim C8 -/

/-- Claim C8: for every 4-byte draw, `generatePin` returns exactly 6
characters, each a digit or an uppercase letter. -/
theorem generatePin_shape (b0 b1 b2 b3 : Nat)
    (h0 : b0 < 256) (h1 : b1 < 256) (h2 : b2 < 256) (h3 : b3 < 256) :
    (generatePin b0 b1 b2 b3).data.length = 6 ∧
    ∀ c ∈ (generatePin b0 b1 b2 b3).data,
      ('0' ≤ c ∧ c ≤ '9') ∨ ('A' ≤ c ∧ c ≤ 'Z') := by
  unfold generatePin
  dsimp only
  constructor
  · rw [List.length_append, List.length_replicate, List.length_map, List.length_drop]
    omega
  · intro c hc
    rcases List.mem_append.mp hc with h | h
    · have hc0 : c = '0' := List.eq_of_mem_replicate h
      subst hc0
      left
      constructor <;> decide
    · rw [List.mem_map] at h
      obtain ⟨c0, hc0, rfl⟩ := h
      have hmem := List.drop_subset _ _ hc0
      obtain ⟨d, hd, rfl⟩ := jsToString36_chars _ c0 hmem
      exact upper_digit36_range d hd

/-- Witness for `generatePin_shape` at the concrete draw `0 0 0 37`. -/
theorem generatePin_shape_witness :
    (generatePin 0 0 0 37).data.length = 6 ∧
    ∀ c ∈ (generatePin 0 0 0 37).data,
      ('0' ≤ c ∧ c ≤ '9') ∨ ('A' ≤ c ∧ c ≤ 'Z') :=
  generatePin_shape 0 0 0 37 (by decide) (by decide) (by decide) (by decide)

/-! ## Claim C9 -/

/-- Claim C9: a `verify-pin` request whose rate key has an active window
at or over the cap gets status 429 with body `{"valid":false}`, the only
storage operation being the `rate_limits` read — no `pins` query and no
`rate_limits` write — and the response is identical whatever the `pins`
table contains, so it does not depend on the PIN's validity. -/
theorem verifyPin_throttled_independent (db : VerifyPinDb) (pinField xff : Option String)
    (now : Nat) (r : RateRow)
    (hpin : jsToUpper (jsTrim (pinField.getD "")) ≠ "")
    (hrow : db.rate ((match xff with
      | some v => jsTrim (String.mk ((splitOnChar ',' v.data).headD []))
      | none => "unknown") ++ ":verify-pin") = some r)
    (hwin : now < r.window_start + WINDOW_MS)
    (hcount : MAX_ATTEMPTS ≤ r.count) :
    verifyPinHandler db "POST" (some pinField) xff now =
      (⟨429, jsonValidFalse⟩, [VEffect.rateSelect ((match xff with
        | some v => jsTrim (String.mk ((splitOnChar ',' v.data).headD []))
        | none => "unknown") ++ ":verify-pin")])
    ∧ ∀ pins2, verifyPinHandler ⟨db.rate, pins2⟩ "POST" (some pinField) xff now =
        verifyPinHandler db "POST" (some pinField) xff now := by
  have main : ∀ pins, verifyPinHandler ⟨db.rate, pins⟩ "POST" (some pinField) xff now =
      (⟨429, jsonValidFalse⟩, [VEffect.rateSelect ((match xff with
        | some v => jsTrim (String.mk ((splitOnChar ',' v.data).headD []))
        | none => "unknown") ++ ":verify-pin")]) := by
    intro pins
    unfold verifyPinHandler
    rw [if_neg (by decide), if_neg (by simp)]
    dsimp only
    rw [if_neg hpin]
    cases xff with
    | none =>
      dsimp only at hrow ⊢
      rw [hrow]
      dsimp only
      rw [if_pos hwin, if_pos hcount]
    | some v =>
      dsimp only at hrow ⊢
      rw [hrow]
      dsimp only
      rw [if_pos hwin, if_pos hcount]
  have hdb : (⟨db.rate, db.pins⟩ : VerifyPinDb) = db := rfl
  have hmain1 := main db.pins
  rw [hdb] at hmain1
  refine ⟨hmain1, fun pins2 => ?_⟩
  rw [main pins2, hmain1]

/-- Witness for `verifyPin_throttled_independent` at a concrete store
with a saturated window. -/
theorem verifyPin_throttled_independent_witness :
    verifyPinHandler ⟨fun _ => some ⟨10, 900⟩, ["ABC123"]⟩ "POST" (some (some "abc123"))
      (some "1.2.3.4") 1000 =
      (⟨429, jsonValidFalse⟩, [VEffect.rateSelect ((match (some "1.2.3.4" : Option String)
        with
        | some v => jsTrim (String.mk ((splitOnChar ',' v.data).headD []))
        | none => "unknown") ++ ":verify-pin")])
    ∧ ∀ pins2, verifyPinHandler ⟨fun _ => some ⟨10, 900⟩, pins2⟩ "POST"
        (some (some "abc123")) (some "1.2.3.4") 1000 =
        verifyPinHandler ⟨fun _ => some ⟨10, 900⟩, ["ABC123"]⟩ "POST"
          (some (some "abc123")) (some "1.2.3.4") 1000 :=
  verifyPin_throttled_independent ⟨fun _ => some ⟨10, 900⟩, ["ABC123"]⟩ (some "abc123")
    (some "1.2.3.4") 1000 ⟨10, 900⟩ (by decide) rfl (by decide) (by decide)

/-! ## Claim C10 -/

/-- Claim C10: a `verify-pin` request whose `pin`, after coercion,
trimming and uppercasing, is empty gets status 200 with body
`{"valid":false}` before the rate limiter runs: the effect list is empty,
so no `rate_limits` row is read, created or incremented and no `pins`
query happens. -/
theorem verifyPin_empty_pin_short_circuit (db : VerifyPinDb)
    (pinField xff : Option String) (now : Nat)
    (hpin : jsToUpper (jsTrim (pinField.getD "")) = "") :
    verifyPinHandler db "POST" (some pinField) xff now = (⟨200, jsonValidFalse⟩, []) := by
  unfold verifyPinHandler
  rw [if_neg (by decide), if_neg (by simp)]
  dsimp only
  rw [if_pos hpin]

/-- Witness for `verifyPin_empty_pin_short_circuit`: a whitespace-only
PIN short-circuits with no effects. -/
theorem verifyPin_empty_pin_short_circuit_witness :
    verifyPinHandler ⟨fun _ => some ⟨10, 900⟩, ["ABC123"]⟩ "POST" (some (some "   "))
      (some "1.2.3.4") 1000 = (⟨200, jsonValidFalse⟩, []) :=
  verifyPin_empty_pin_short_circuit ⟨fun _ => some ⟨10, 900⟩, ["ABC123"]⟩ (some "   ")
    (some "1.2.3.4") 1000 (by decide)

end Machula
